import Mathlib

/-!
Shallow embedding of estafette-ci-gsuite-syncer.

The definitions below translate the reconciliation core of the repository:
`SynchronizeGroupsAndMembers`, `createGroup` / `updateGroup` call issuing
(src/apiClient.go), the paginated fetchers `GetGroups` / `GetOrganizations` /
`GetUsers` (src/apiClient.go), and the result-draining loop of
`GetGroupMembers` (src/gsuiteClient.go).  Network calls are represented by an
explicit call trace together with a failure oracle; the remote registry state
is represented by the list of registry groups.
-/

namespace Syncer

/-- Identity reference attached to a registry group
(contracts.GroupIdentity: Provider, ID, Name). -/
structure GroupIdentity where
  provider : String
  id : String
  name : String
deriving DecidableEq

/-- Registry group (contracts.Group: ID, Name, Identities). -/
structure Group where
  id : String
  name : String
  identities : List GroupIdentity
deriving DecidableEq

/-- Directory (gsuite) group (admin.Group: Email, Name). -/
structure GsuiteGroup where
  email : String
  name : String
deriving DecidableEq

/-- Directory member; the core only ever counts them, so an opaque
identifier suffices (admin.Member). -/
abbrev Member := String

/-- The fixed directory-provider tag, `const gsuitProviderName = "gsuite"`
in src/apiClient.go. -/
def gsuitProviderName : String := "gsuite"

/-- Go `strings.TrimPrefix(s, pfx)`: s without the leading pfx, or s
unchanged when pfx is not a leading part of s. -/
def stringsTrimPfx (s pfx : String) : String :=
  if pfx.data = s.data.take pfx.data.length then String.mk (s.data.drop pfx.data.length) else s

/-- The inline matching condition of SynchronizeGroupsAndMembers:
`i.Provider == gsuitProviderName && i.ID == gg.Email` (src/apiClient.go:574). -/
def identityMatch (gg : GsuiteGroup) (i : GroupIdentity) : Bool :=
  i.provider == gsuitProviderName && i.id == gg.email

/-- The group matcher: a registry group matches a directory group when some
identity reference carries the gsuite provider tag and the directory group's
email (the flag-setting loops at src/apiClient.go:573-584 and 596-600). -/
def groupMatches (g : Group) (gg : GsuiteGroup) : Bool :=
  g.identities.any (fun i => identityMatch gg i)

/-- Calls issued against the registry API by the reconciler:
`updateGroup` (PUT) and `createGroup` (POST) with their full payload. -/
inductive SyncCall where
  | update : Group → SyncCall
  | create : Group → SyncCall
deriving DecidableEq

/-- Whether a call issued by the reconciler is an update call. -/
def SyncCall.isUpd : SyncCall → Bool
  | SyncCall.update _ => true
  | SyncCall.create _ => false

/-- Failure oracle that makes every registry call succeed. -/
def noFail : SyncCall → Bool := fun _ => false

/-- Inner loop of the update pass over one registry group's identities for a
fixed gsuite group gg (src/apiClient.go:573-584): each matching identity
renames the group in place and issues an update call; a failing call aborts.
Returns (group after mutations, calls issued, ok). -/
def syncGroupIdentities (pfx : String) (failsOn : SyncCall → Bool) (gg : GsuiteGroup) :
    Group → List GroupIdentity → Group × List SyncCall × Bool
  | g, [] => (g, [], true)
  | g, i :: is =>
    if identityMatch gg i then
      let g1 : Group := { g with name := stringsTrimPfx gg.name pfx }
      if failsOn (SyncCall.update g1) then
        (g1, [SyncCall.update g1], false)
      else
        let rest := syncGroupIdentities pfx failsOn gg g1 is
        (rest.1, SyncCall.update g1 :: rest.2.1, rest.2.2)
    else
      syncGroupIdentities pfx failsOn gg g is

/-- Middle loop of the update pass: one registry group scanned against every
entry of the membership map (src/apiClient.go:571-585). -/
def syncGroupOverMap (pfx : String) (failsOn : SyncCall → Bool) :
    Group → List (GsuiteGroup × List Member) → Group × List SyncCall × Bool
  | g, [] => (g, [], true)
  | g, (gg, _) :: mm =>
    let step := syncGroupIdentities pfx failsOn gg g g.identities
    if step.2.2 then
      let rest := syncGroupOverMap pfx failsOn step.1 mm
      (rest.1, step.2.1 ++ rest.2.1, rest.2.2)
    else
      (step.1, step.2.1, false)

/-- Update pass of the reconciler (src/apiClient.go:569-590).  The
hasMatchingGsuiteGroup flag of the source only feeds an empty TODO branch and
has no effect, so it is not tracked.  Returns the registry groups after the
in-place renames, the calls issued, and whether every call succeeded. -/
def updatePass (pfx : String) (failsOn : SyncCall → Bool) :
    List Group → List (GsuiteGroup × List Member) → List Group × List SyncCall × Bool
  | [], _ => ([], [], true)
  | g :: gs, mm =>
    let step := syncGroupOverMap pfx failsOn g mm
    if step.2.2 then
      let rest := updatePass pfx failsOn gs mm
      (step.1 :: rest.1, step.2.1 ++ rest.2.1, rest.2.2)
    else
      (step.1 :: gs, step.2.1, false)

/-- Matching scan of the creation pass (src/apiClient.go:593-601): flag set
when some registry group has an identity with the gsuite provider and the
directory group's email. -/
def hasMatchingEstafetteGroup (groups : List Group) (gg : GsuiteGroup) : Bool :=
  groups.any (fun g => g.identities.any (fun i => identityMatch gg i))

/-- The registry group built for an unmatched directory group
(src/apiClient.go:606-615): no ID yet, display name with the configured
prefix stripped, and a single identity reference. -/
def newGroupFor (pfx : String) (gg : GsuiteGroup) : Group :=
  { id := "",
    name := stringsTrimPfx gg.name pfx,
    identities := [{ provider := gsuitProviderName, id := gg.email, name := gg.name }] }

/-- Creation pass of the reconciler (src/apiClient.go:592-622): one create
call per unmatched directory group with a non-empty member list; a failing
call aborts. -/
def createPass (pfx : String) (failsOn : SyncCall → Bool) (groups : List Group) :
    List (GsuiteGroup × List Member) → List SyncCall × Bool
  | [] => ([], true)
  | (gg, m) :: mm =>
    if !hasMatchingEstafetteGroup groups gg && decide (0 < m.length) then
      if failsOn (SyncCall.create (newGroupFor pfx gg)) then
        ([SyncCall.create (newGroupFor pfx gg)], false)
      else
        let rest := createPass pfx failsOn groups mm
        (SyncCall.create (newGroupFor pfx gg) :: rest.1, rest.2)
    else
      createPass pfx failsOn groups mm

/-- Outcome of one reconciler run: the registry groups after the in-place
renames, the registry calls issued in order, and whether the run completed
without a failing call. -/
structure SyncRun where
  groups : List Group
  calls : List SyncCall
  ok : Bool
deriving DecidableEq

/-- SynchronizeGroupsAndMembers (src/apiClient.go:565-625): the update pass
runs first; the creation pass runs on the (renamed) registry groups only when
every update call succeeded. -/
def SynchronizeGroupsAndMembers (pfx : String) (failsOn : SyncCall → Bool)
    (groups : List Group) (mm : List (GsuiteGroup × List Member)) : SyncRun :=
  let up := updatePass pfx failsOn groups mm
  if up.2.2 then
    let cr := createPass pfx failsOn up.1 mm
    ⟨up.1, up.2.1 ++ cr.1, cr.2⟩
  else
    ⟨up.1, up.2.1, false⟩

/-- Groups a run asked the registry to create. -/
def createdGroups (r : SyncRun) : List Group :=
  r.calls.filterMap (fun c =>
    match c with
    | SyncCall.create g => some g
    | SyncCall.update _ => none)

/-- Registry state after an error-free run: the renamed groups together with
the groups the run created. -/
def runRegistry (pfx : String) (gs : List Group) (mm : List (GsuiteGroup × List Member)) :
    List Group :=
  let r := SynchronizeGroupsAndMembers pfx noFail gs mm
  r.groups ++ createdGroups r

/-- Display name carried by a registry group with identity references ids
after the update pass scanned it against the whole membership map: each
matching entry overwrites the name with that directory group's name, prefix
stripped; entries with no matching identity leave it alone. -/
def nameAfter (pfx : String) (ids : List GroupIdentity) (mm : List (GsuiteGroup × List Member))
    (n : String) : String :=
  mm.foldl (fun n p => if ids.any (fun i => identityMatch p.1 i) then stringsTrimPfx p.1.name pfx else n) n

/-- A registry group after the update pass scanned it against the whole
membership map on an error-free run: only the display name changes. -/
def renameFor (pfx : String) (mm : List (GsuiteGroup × List Member)) (g : Group) : Group :=
  { g with name := nameAfter pfx g.identities mm g.name }

/-- Update calls the update pass issues for one registry group on an
error-free run: one call per (membership entry, matching identity) pair, each
carrying the group renamed to that entry's stripped name. -/
def updCallsFor (pfx : String) (g : Group) (mm : List (GsuiteGroup × List Member)) :
    List SyncCall :=
  mm.flatMap (fun p =>
    List.replicate (g.identities.countP (fun i => identityMatch p.1 i))
      (SyncCall.update { g with name := stringsTrimPfx p.1.name pfx }))

/-- Create calls the creation pass issues on an error-free run. -/
def creCallsFor (pfx : String) (gs : List Group) (mm : List (GsuiteGroup × List Member)) :
    List SyncCall :=
  (mm.filter (fun p => !hasMatchingEstafetteGroup gs p.1 && decide (0 < p.2.length))).map
    (fun p => SyncCall.create (newGroupFor pfx p.1))

/-- A run either completes with every issued call succeeding, or its trace
ends at its first failing call: all earlier calls succeeded and nothing is
issued afterwards. -/
def FailFast (f : SyncCall → Bool) (cs : List SyncCall) (ok : Bool) : Prop :=
  if ok then ∀ c ∈ cs, f c = false
  else ∃ cs0 l, cs = cs0 ++ [l] ∧ (∀ c ∈ cs0, f c = false) ∧ f l = true

/-- Two registry groups that agree on everything but the display name: the
update pass only ever rewrites names, never identifiers or identity
references. -/
def sameFrame (g g0 : Group) : Prop :=
  g.id = g0.id ∧ g.identities = g0.identities

/-- Outcome of one per-group member fetch performed by a worker of
GetGroupMembers (src/gsuiteClient.go:150-156): the group, the members
returned by getGroupMembersPage, and that call's error if any. -/
structure MemberFetchResult where
  group : GsuiteGroup
  members : List Member
  err : Option String
deriving DecidableEq

/-- The result-draining loop of GetGroupMembers (src/gsuiteClient.go:166-173),
run over the fetch results in their (arbitrary) channel arrival order.  On the
first result carrying an error the function returns the map built so far
together with the function's named return value `err` — which has never been
assigned at that point and is therefore still nil (src/gsuiteClient.go:168
returns `err`, not `r.err`). -/
def drainGroupMemberResults (acc : List (GsuiteGroup × List Member)) :
    List MemberFetchResult → List (GsuiteGroup × List Member) × Option String
  | [] => (acc, none)
  | r :: rs =>
    match r.err with
    | some _ => (acc, none)
    | none => drainGroupMemberResults (acc ++ [(r.group, r.members)]) rs

/-- GetGroupMembers (src/gsuiteClient.go:124-178), observed through the fetch
results its workers deliver: the bounded worker pool and semaphore only
schedule the per-group fetches; the returned mapping and error are computed by
the sequential draining loop modelled here. -/
def GetGroupMembers (results : List MemberFetchResult) :
    List (GsuiteGroup × List Member) × Option String :=
  drainGroupMemberResults [] results

/-- One run of the pagination loop shared by GetGroups / GetOrganizations /
GetUsers (src/apiClient.go:134-150): starts from the given page number, calls
the page operation with page size 100, appends the items of each successful
page, stops once the reported total page count is at most the current page
number, and aborts on the first page error.  The fuel argument models the
unbounded Go for-loop: `none` means the loop is still running after that many
iterations.  Also records every (page number, page size) request made. -/
def getGroupsLoop (fetchPage : Nat → Nat → Except String (List α × Nat)) :
    Nat → Nat → List α → List (Nat × Nat) →
    Option (List α × List (Nat × Nat) × Option String)
  | 0, _, _, _ => none
  | fuel + 1, pageNumber, acc, reqs =>
    match fetchPage pageNumber 100 with
    | Except.error e => some (acc, reqs ++ [(pageNumber, 100)], some e)
    | Except.ok (items, totalPages) =>
      if totalPages ≤ pageNumber then
        some (acc ++ items, reqs ++ [(pageNumber, 100)], none)
      else
        getGroupsLoop fetchPage fuel (pageNumber + 1) (acc ++ items) (reqs ++ [(pageNumber, 100)])

/-- GetGroups (src/apiClient.go:130-153): the paginated fetcher, generic in
the page-producing operation (getGroupsPage there; GetOrganizations and
GetUsers are the same loop).  Page numbering starts at 1, page size is 100. -/
def GetGroups (fetchPage : Nat → Nat → Except String (List α × Nat)) (fuel : Nat) :
    Option (List α × List (Nat × Nat) × Option String) :=
  getGroupsLoop fetchPage fuel 1 [] []

/-- A corrupt page operation whose reported total page count always exceeds
the current page number. -/
def corruptPage : Nat → Nat → Except String (List Unit × Nat) :=
  fun pageNumber _ => Except.ok ([], pageNumber + 1)

/-!  Theorems.  -/

example : stringsTrimPfx "eng-platform" "eng-" = "platform" := by decide

example :
    GetGroupMembers [⟨⟨"grp@x.com", "eng-x"⟩, [], some "boom"⟩] = ([], none) := by decide

example :
    GetGroups (fun p _ => Except.ok ([p], 3)) 5 =
    some ([1, 2, 3], [(1, 100), (2, 100), (3, 100)], none) := by decide

example :
    SynchronizeGroupsAndMembers "eng-" noFail
      [⟨"g1", "old", [⟨"gsuite", "grp@x.com", "grp"⟩]⟩]
      [(⟨"grp@x.com", "eng-new"⟩, ["m1", "m2"])] =
    ⟨[⟨"g1", "new", [⟨"gsuite", "grp@x.com", "grp"⟩]⟩],
     [SyncCall.update ⟨"g1", "new", [⟨"gsuite", "grp@x.com", "grp"⟩]⟩], true⟩ := by decide

example :
    SynchronizeGroupsAndMembers "eng-" noFail []
      [(⟨"grp@x.com", "eng-new"⟩, [])] = ⟨[], [], true⟩ := by decide

example :
    SynchronizeGroupsAndMembers "eng-" noFail []
      [(⟨"grp@x.com", "eng-new"⟩, ["m"])] =
    ⟨[], [SyncCall.create ⟨"", "new", [⟨"gsuite", "grp@x.com", "eng-new"⟩]⟩], true⟩ := by decide

/-- The error slot coming out of the result-draining loop is nil on every
path: the failure branch returns the never-assigned named return value. -/
theorem drainGroupMemberResults_err_none (rs : List MemberFetchResult) :
    ∀ acc, (drainGroupMemberResults acc rs).2 = none := by
  induction rs with
  | nil => intro acc; rfl
  | cons r rs ih =>
    intro acc
    cases h : r.err with
    | none => simp [drainGroupMemberResults, h, ih]
    | some e => simp [drainGroupMemberResults, h]

/-- C1 (code bug): src/gsuiteClient.go:168 returns the named return value
`err` — never assigned, hence nil — instead of `r.err`, so GetGroupMembers
reports a nil error for every batch of fetch results, including one whose
per-group member fetch failed: the claimed non-nil error never reaches the
caller.  On the concrete failing batch the caller sees an empty map and a nil
error, as if the batch had succeeded. -/
theorem GetGroupMembers_error_always_nil :
    (∀ results : List MemberFetchResult, (GetGroupMembers results).2 = none) ∧
    GetGroupMembers [⟨⟨"grp@x.com", "eng-x"⟩, [], some "boom"⟩] = ([], none) := by
  exact ⟨fun results => drainGroupMemberResults_err_none results [], by decide⟩

/-- C3: the matcher returns true iff the registry group has an identity
reference whose provider is the fixed tag "gsuite" and whose external ID is
the directory group's email; with zero identity references it returns
false. -/
theorem groupMatches_iff (g : Group) (gg : GsuiteGroup) :
    (groupMatches g gg = true ↔
      ∃ i ∈ g.identities, i.provider = gsuitProviderName ∧ i.id = gg.email) ∧
    (g.identities = [] → groupMatches g gg = false) := by
  constructor
  · simp [groupMatches, identityMatch, List.any_eq_true]
  · intro h; simp [groupMatches, h]

/-- Witness for groupMatches_iff at a registry group with zero identity
references. -/
theorem groupMatches_iff_witness :
    groupMatches ⟨"g1", "old", []⟩ ⟨"grp@x.com", "eng-x"⟩ = false :=
  (groupMatches_iff ⟨"g1", "old", []⟩ ⟨"grp@x.com", "eng-x"⟩).2 rfl

/-- Closed form of the pagination loop against an operation that always
succeeds and always reports the same total page count. -/
theorem getGroupsLoop_consistent {α : Type} (f : Nat → Nat → Except String (List α × Nat))
    (items : Nat → List α) (T : Nat)
    (hf : ∀ p, f p 100 = Except.ok (items p, T)) :
    ∀ n p (acc : List α) (reqs : List (Nat × Nat)), T = p + n →
      getGroupsLoop f (n + 1) p acc reqs =
        some (acc ++ (List.range' p (n + 1)).flatMap items,
              reqs ++ (List.range' p (n + 1)).map (fun q => (q, 100)), none) := by
  intro n
  induction n with
  | zero =>
    intro p acc reqs hT
    have hle : T ≤ p := by omega
    simp [getGroupsLoop, hf p, hle, List.range'_succ]
  | succ n ih =>
    intro p acc reqs hT
    have hnle : ¬ T ≤ p := by omega
    have hstep : getGroupsLoop f (n + 1 + 1) p acc reqs =
        getGroupsLoop f (n + 1) (p + 1) (acc ++ items p) (reqs ++ [(p, 100)]) := by
      simp [getGroupsLoop, hf p, hnle]
    rw [hstep, ih (p + 1) (acc ++ items p) (reqs ++ [(p, 100)]) (by omega)]
    simp [List.range'_succ, List.append_assoc]

/-- C7: the paginated fetcher starts at page 1 with page size 100, fetches
exactly the pages 1 up to the reported total page count (so it stops as soon
as the reported total is at most the current page number), returns the
ordered concatenation of their items, and never requests the same page number
twice.  Stated for a page operation that consistently reports a positive
total page count T; fuel T suffices for the loop to finish. -/
theorem GetGroups_pages_one_to_total (α : Type) (f : Nat → Nat → Except String (List α × Nat))
    (items : Nat → List α) (T : Nat) (hT : 1 ≤ T)
    (hf : ∀ p, f p 100 = Except.ok (items p, T)) :
    GetGroups f T =
      some ((List.range' 1 T).flatMap items,
            (List.range' 1 T).map (fun q => (q, 100)), none) ∧
    (((List.range' 1 T).map (fun q => (q, 100))).map Prod.fst).Nodup ∧
    ((List.range' 1 T).map (fun q => (q, 100))).head? = some (1, 100) := by
  obtain ⟨n, rfl⟩ : ∃ n, T = n + 1 := ⟨T - 1, by omega⟩
  refine ⟨?_, ?_, ?_⟩
  · have h := getGroupsLoop_consistent f items (n + 1) hf n 1 [] [] (by omega)
    simpa [GetGroups] using h
  · simp only [List.map_map]
    have : (Prod.fst ∘ fun q => (q, 100)) = (id : Nat → Nat) := rfl
    rw [this, List.map_id]
    exact List.nodup_range' 1 (n + 1)
  · simp [List.range'_succ]

/-- Witness for GetGroups_pages_one_to_total: two pages of one item each. -/
theorem GetGroups_pages_one_to_total_witness :
    GetGroups (fun _ _ => Except.ok ([()], 2)) 2 =
      some ([(), ()], [(1, 100), (2, 100)], none) := by
  have h := (GetGroups_pages_one_to_total Unit (fun _ _ => Except.ok ([()], 2))
    (fun _ => [()]) 2 (by decide) (fun p => rfl)).1
  rw [h]
  decide

/-- Closed form of the pagination loop up to a failing page: the pages before
it succeed and report totals beyond the current page. -/
theorem getGroupsLoop_error {α : Type} (f : Nat → Nat → Except String (List α × Nat))
    (items : Nat → List α) (totals : Nat → Nat) (k : Nat) (e : String)
    (hf : ∀ p, 1 ≤ p → p < k → f p 100 = Except.ok (items p, totals p))
    (hgt : ∀ p, 1 ≤ p → p < k → p < totals p)
    (he : f k 100 = Except.error e) :
    ∀ n p (acc : List α) (reqs : List (Nat × Nat)), 1 ≤ p → k = p + n →
      getGroupsLoop f (n + 1) p acc reqs =
        some (acc ++ (List.range' p n).flatMap items,
              reqs ++ (List.range' p (n + 1)).map (fun q => (q, 100)), some e) := by
  intro n
  induction n with
  | zero =>
    intro p acc reqs hp hk
    have hpk : p = k := by omega
    subst hpk
    simp [getGroupsLoop, he, List.range'_succ]
  | succ n ih =>
    intro p acc reqs hp hk
    have h1 : f p 100 = Except.ok (items p, totals p) := hf p hp (by omega)
    have h2 : ¬ totals p ≤ p := by have := hgt p hp (by omega); omega
    have hstep : getGroupsLoop f (n + 1 + 1) p acc reqs =
        getGroupsLoop f (n + 1) (p + 1) (acc ++ items p) (reqs ++ [(p, 100)]) := by
      simp [getGroupsLoop, h1, h2]
    rw [hstep, ih (p + 1) (acc ++ items p) (reqs ++ [(p, 100)]) (by omega) (by omega)]
    simp [List.range'_succ, List.append_assoc]

/-- C8: when page k is the first page to fail, the fetcher aborts there and
returns the page error together with the concatenated items of the pages
1..k-1 fetched before it (having requested pages 1..k). -/
theorem GetGroups_error_aborts (α : Type) (f : Nat → Nat → Except String (List α × Nat))
    (items : Nat → List α) (totals : Nat → Nat) (k : Nat) (e : String) (hk : 1 ≤ k)
    (hf : ∀ p, 1 ≤ p → p < k → f p 100 = Except.ok (items p, totals p))
    (hgt : ∀ p, 1 ≤ p → p < k → p < totals p)
    (he : f k 100 = Except.error e) :
    GetGroups f k =
      some ((List.range' 1 (k - 1)).flatMap items,
            (List.range' 1 k).map (fun q => (q, 100)), some e) := by
  obtain ⟨n, rfl⟩ : ∃ n, k = n + 1 := ⟨k - 1, by omega⟩
  have h := getGroupsLoop_error f items totals (n + 1) e hf hgt he n 1 [] []
    (by omega) (by omega)
  simpa [GetGroups] using h

/-- Witness for GetGroups_error_aborts: one good page, then a failure. -/
theorem GetGroups_error_aborts_witness :
    GetGroups (fun p _ => if p < 2 then Except.ok ([p], 5) else Except.error "boom") 2 =
      some ([1], [(1, 100), (2, 100)], some "boom") := by
  have h := GetGroups_error_aborts Nat
    (fun p _ => if p < 2 then Except.ok ([p], 5) else Except.error "boom")
    (fun p => [p]) (fun _ => 5) 2 "boom" (by decide)
    (fun p h1 h2 => by
      have : p = 1 := by omega
      subst this; rfl)
    (fun p h1 h2 => by show p < 5; omega)
    rfl
  rw [h]
  decide

/-- The corrupt page operation keeps the loop running forever: with the
reported total page count always above the current page number, no amount of
fuel completes the loop. -/
theorem getGroupsLoop_corrupt_none (fuel : Nat) :
    ∀ p (acc : List Unit) (reqs : List (Nat × Nat)),
      getGroupsLoop corruptPage fuel p acc reqs = none := by
  induction fuel with
  | zero => intro p acc reqs; rfl
  | succ fuel ih =>
    intro p acc reqs
    have h : ¬ p + 1 ≤ p := by omega
    simp [getGroupsLoop, corruptPage, h, ih]

/-- C9 counterexample: the claim fails on the code — the pagination loop has
no page-count guard, and against a page operation whose reported total page
count always exceeds the current page number the fetch never terminates: no
iteration bound makes GetGroups return. -/
theorem GetGroups_corrupt_never_returns :
    ¬ ∃ fuel, (GetGroups corruptPage fuel).isSome = true := by
  rintro ⟨fuel, h⟩
  rw [GetGroups, getGroupsLoop_corrupt_none] at h
  simp at h

/-- For an operation whose reported total page counts stay below a bound the
loop stops within that bound. -/
theorem getGroupsLoop_bounded_isSome {α : Type} (f : Nat → Nat → Except String (List α × Nat))
    (B : Nat) (hB : ∀ p r, f p 100 = Except.ok r → r.2 ≤ B) :
    ∀ fuel p (acc : List α) (reqs : List (Nat × Nat)), 1 ≤ fuel → B + 1 ≤ fuel + p →
      (getGroupsLoop f fuel p acc reqs).isSome = true := by
  intro fuel
  induction fuel with
  | zero => intro p acc reqs h; omega
  | succ fuel ih =>
    intro p acc reqs _ hb
    cases hfp : f p 100 with
    | error e => simp [getGroupsLoop, hfp]
    | ok r =>
      obtain ⟨items, total⟩ := r
      have htot : total ≤ B := hB p (items, total) hfp
      by_cases hle : total ≤ p
      · simp [getGroupsLoop, hfp, hle]
      · have hfuel : 1 ≤ fuel := by omega
        simp only [getGroupsLoop, hfp]
        rw [if_neg hle]
        exact ih (p + 1) (acc ++ items) (reqs ++ [(p, 100)]) hfuel (by omega)

/-- C9 amended: the paginated fetch terminates for every page-producing
operation whose reported total page counts are bounded (in particular for any
operation reporting a consistent total): with bound B, at most B + 1 loop
iterations are taken.  The code contains no guard of its own, so this bound
is a property of the operation, not of the loop. -/
theorem GetGroups_terminates_of_bounded (α : Type)
    (f : Nat → Nat → Except String (List α × Nat)) (B : Nat)
    (hB : ∀ p r, f p 100 = Except.ok r → r.2 ≤ B) :
    (GetGroups f (B + 1)).isSome = true :=
  getGroupsLoop_bounded_isSome f B hB (B + 1) 1 [] [] (by omega) (by omega)

/-- Witness for GetGroups_terminates_of_bounded: a one-page operation. -/
theorem GetGroups_terminates_of_bounded_witness :
    (GetGroups (fun _ _ => Except.ok (([] : List Unit), 1)) 2).isSome = true := by
  have h := GetGroups_terminates_of_bounded Unit (fun _ _ => Except.ok ([], 1)) 1
    (fun p r hr => by
      injection hr with h
      subst h
      decide)
  exact h

/-- Renaming a group does not touch its identity references. -/
theorem identities_setName (g : Group) (v : String) :
    (Group.mk g.id v g.identities).identities = g.identities := rfl

/-- Closed form of the inner identity loop on an error-free run: each of the
k matching identities issues one update call carrying the renamed group; the
group ends up renamed iff some identity matched. -/
theorem syncGroupIdentities_noFail (pfx : String) (gg : GsuiteGroup) :
    ∀ (is : List GroupIdentity) (g : Group),
      syncGroupIdentities pfx noFail gg g is =
        ((if is.any (fun i => identityMatch gg i) then
            { g with name := stringsTrimPfx gg.name pfx } else g),
         List.replicate (is.countP (fun i => identityMatch gg i))
           (SyncCall.update { g with name := stringsTrimPfx gg.name pfx }),
         true) := by
  intro is
  induction is with
  | nil => intro g; simp [syncGroupIdentities]
  | cons i is ih =>
    intro g
    obtain ⟨gid, gname, gids⟩ := g
    by_cases h : identityMatch gg i
    · simp [syncGroupIdentities, h, noFail, ih, List.countP_cons, List.replicate_succ]
    · simp [syncGroupIdentities, h, ih, List.countP_cons]

/-- Closed form of the per-group map scan on an error-free run. -/
theorem syncGroupOverMap_noFail (pfx : String) :
    ∀ (mm : List (GsuiteGroup × List Member)) (g : Group),
      syncGroupOverMap pfx noFail g mm = (renameFor pfx mm g, updCallsFor pfx g mm, true) := by
  intro mm
  induction mm with
  | nil => intro g; simp [syncGroupOverMap, renameFor, nameAfter, updCallsFor]
  | cons q mm ih =>
    intro g
    obtain ⟨gg, m⟩ := q
    obtain ⟨gid, gname, gids⟩ := g
    by_cases h : gids.any (fun i => identityMatch gg i)
    · have h2 : ∃ x ∈ gids, identityMatch gg x = true := List.any_eq_true.mp h
      simp [syncGroupOverMap, syncGroupIdentities_noFail, h, ih, renameFor, nameAfter,
        updCallsFor]
      rw [if_pos h2]
    · have h2 : ¬ ∃ x ∈ gids, identityMatch gg x = true :=
        fun hc => h (List.any_eq_true.mpr hc)
      simp [syncGroupOverMap, syncGroupIdentities_noFail, h, ih, renameFor, nameAfter,
        updCallsFor]
      rw [if_neg h2]

/-- Closed form of the update pass on an error-free run: every group is
renamed independently and contributes its own block of update calls. -/
theorem updatePass_noFail (pfx : String) (mm : List (GsuiteGroup × List Member)) :
    ∀ gs : List Group,
      updatePass pfx noFail gs mm =
        (gs.map (renameFor pfx mm), gs.flatMap (fun g => updCallsFor pfx g mm), true) := by
  intro gs
  induction gs with
  | nil => simp [updatePass]
  | cons g gs ih => simp [updatePass, syncGroupOverMap_noFail, ih]

/-- Closed form of the creation pass on an error-free run. -/
theorem createPass_noFail (pfx : String) (gs : List Group) :
    ∀ mm, createPass pfx noFail gs mm = (creCallsFor pfx gs mm, true) := by
  intro mm
  induction mm with
  | nil => simp [createPass, creCallsFor]
  | cons q mm ih =>
    obtain ⟨gg, m⟩ := q
    by_cases h : (!hasMatchingEstafetteGroup gs gg && decide (0 < m.length)) = true
    · simp [createPass, h, noFail, ih, creCallsFor, List.filter_cons]
    · simp [createPass, h, ih, creCallsFor, List.filter_cons]

/-- The creation-pass scan only looks at identity references, which the
update pass leaves untouched. -/
theorem hasMatching_map_renameFor (pfx : String) (mm : List (GsuiteGroup × List Member))
    (gs : List Group) (gg : GsuiteGroup) :
    hasMatchingEstafetteGroup (gs.map (renameFor pfx mm)) gg =
      hasMatchingEstafetteGroup gs gg := by
  induction gs with
  | nil => rfl
  | cons g gs ih =>
    obtain ⟨gid, gname, gids⟩ := g
    simp [hasMatchingEstafetteGroup, renameFor] at ih ⊢
    rw [ih]

/-- Create calls are insensitive to the renames of the update pass. -/
theorem creCallsFor_map_renameFor (pfx : String) (mm mm2 : List (GsuiteGroup × List Member))
    (gs : List Group) :
    creCallsFor pfx (gs.map (renameFor pfx mm)) mm2 = creCallsFor pfx gs mm2 := by
  unfold creCallsFor
  rw [List.filter_congr]
  intro p _
  rw [hasMatching_map_renameFor]

/-- Closed form of a full reconciler run on an error-free oracle:
renamed groups, then the update calls of every group in order, then the
create calls for the unmatched non-empty directory groups. -/
theorem SynchronizeGroupsAndMembers_noFail (pfx : String) (gs : List Group)
    (mm : List (GsuiteGroup × List Member)) :
    SynchronizeGroupsAndMembers pfx noFail gs mm =
      ⟨gs.map (renameFor pfx mm),
       gs.flatMap (fun g => updCallsFor pfx g mm) ++ creCallsFor pfx gs mm, true⟩ := by
  simp [SynchronizeGroupsAndMembers, updatePass_noFail, createPass_noFail,
    creCallsFor_map_renameFor]

/-- Every call emitted by updCallsFor is an update call. -/
theorem updCallsFor_isUpd (pfx : String) (g : Group) (mm : List (GsuiteGroup × List Member)) :
    ∀ c ∈ updCallsFor pfx g mm, c.isUpd = true := by
  intro c hc
  simp only [updCallsFor, List.mem_flatMap, List.mem_replicate] at hc
  obtain ⟨p, -, -, rfl⟩ := hc
  rfl

/-- Every call emitted by creCallsFor is a create call. -/
theorem creCallsFor_isCre (pfx : String) (gs : List Group)
    (mm : List (GsuiteGroup × List Member)) :
    ∀ c ∈ creCallsFor pfx gs mm, c.isUpd = false := by
  intro c hc
  simp only [creCallsFor, List.mem_map] at hc
  obtain ⟨p, -, rfl⟩ := hc
  rfl

/-- C2: on an error-free run, a create call is issued for a directory group
iff no registry group matches it (the scan over identity references with the
gsuite provider tag and the group's email) and its member list is non-empty;
the created registry group carries exactly one identity reference (provider
"gsuite", external ID the group's email, external name its display name) and
the prefix-stripped display name.  A member-less unmatched directory group
yields no create call. -/
theorem createIffUnmatchedNonEmpty (pfx : String) (gs : List Group)
    (mm : List (GsuiteGroup × List Member)) (gg : GsuiteGroup) :
    (SyncCall.create ⟨"", stringsTrimPfx gg.name pfx,
        [⟨gsuitProviderName, gg.email, gg.name⟩]⟩ ∈
      (SynchronizeGroupsAndMembers pfx noFail gs mm).calls ↔
      hasMatchingEstafetteGroup gs gg = false ∧ ∃ m, (gg, m) ∈ mm ∧ m ≠ []) ∧
    hasMatchingEstafetteGroup gs gg = gs.any (fun g => groupMatches g gg) := by
  refine ⟨?_, rfl⟩
  rw [SynchronizeGroupsAndMembers_noFail]
  simp only [List.mem_append]
  constructor
  · rintro (hup | hcr)
    · exfalso
      rw [List.mem_flatMap] at hup
      obtain ⟨g, -, hc⟩ := hup
      exact absurd (updCallsFor_isUpd pfx g mm _ hc) (by simp [SyncCall.isUpd])
    · simp only [creCallsFor, List.mem_map, List.mem_filter] at hcr
      obtain ⟨p, ⟨hpmm, hpred⟩, heq⟩ := hcr
      obtain ⟨p1, m⟩ := p
      obtain ⟨pe, pn⟩ := p1
      simp only [newGroupFor, SyncCall.create.injEq, Group.mk.injEq, List.cons.injEq,
        GroupIdentity.mk.injEq] at heq
      obtain ⟨-, -, ⟨⟨-, he, hn⟩, -⟩⟩ := heq
      subst he; subst hn
      simp only [Bool.and_eq_true, Bool.not_eq_true', decide_eq_true_eq] at hpred
      refine ⟨hpred.1, m, hpmm, ?_⟩
      intro hmnil
      subst hmnil
      simp at hpred
  · rintro ⟨hnm, m, hmm, hne⟩
    right
    simp only [creCallsFor, List.mem_map, List.mem_filter]
    refine ⟨(gg, m), ⟨hmm, ?_⟩, rfl⟩
    simp [hnm, List.length_pos, hne]

/-- With at most one matching identity reference per directory group (the
data-model invariant: at most one identity reference per provider refers to a
given external ID), the update-call block of a registry group is one call per
matching membership entry. -/
theorem updCallsFor_count_le_one (pfx : String) (g : Group)
    (h : ∀ gg : GsuiteGroup, g.identities.countP (fun i => identityMatch gg i) ≤ 1) :
    ∀ mm : List (GsuiteGroup × List Member),
      updCallsFor pfx g mm =
        (mm.filter (fun p => groupMatches g p.1)).map
          (fun p => SyncCall.update { g with name := stringsTrimPfx p.1.name pfx }) := by
  intro mm
  induction mm with
  | nil => rfl
  | cons q mm ih =>
    simp only [updCallsFor, List.flatMap_cons, List.filter_cons] at ih ⊢
    by_cases hq : groupMatches g q.1 = true
    · have hpos : 0 < g.identities.countP (fun i => identityMatch q.1 i) :=
        List.countP_pos_iff.mpr (List.any_eq_true.mp hq)
      have hone : g.identities.countP (fun i => identityMatch q.1 i) = 1 := by
        have := h q.1
        omega
      rw [hone, hq, if_pos rfl]
      simp only [List.replicate_succ, List.replicate_zero, List.map_cons]
      rw [List.singleton_append, ih]
    · have hzero : g.identities.countP (fun i => identityMatch q.1 i) = 0 := by
        rw [List.countP_eq_zero]
        intro i hi hmi
        exact hq (List.any_eq_true.mpr ⟨i, hi, hmi⟩)
      rw [hzero, if_neg hq]
      simp only [List.replicate_zero, List.nil_append]
      exact ih

/-- C4: in the update pass of an error-free run, each registry group gets
exactly one update call per membership entry that matches it, in membership
order, each carrying the group renamed to that directory group's display name
with the configured prefix stripped; a group matching several directory
groups gets several update calls.  Stated under the data-model invariant that
a registry group carries at most one identity reference per directory group
(at most one reference per provider for a given external ID). -/
theorem updatePerMatchingDirectoryGroup (pfx : String) (gs : List Group)
    (mm : List (GsuiteGroup × List Member))
    (hinv : ∀ g ∈ gs, ∀ gg : GsuiteGroup,
      g.identities.countP (fun i => identityMatch gg i) ≤ 1) :
    (SynchronizeGroupsAndMembers pfx noFail gs mm).calls.filter SyncCall.isUpd =
      gs.flatMap (fun g =>
        (mm.filter (fun p => groupMatches g p.1)).map
          (fun p => SyncCall.update { g with name := stringsTrimPfx p.1.name pfx })) := by
  rw [SynchronizeGroupsAndMembers_noFail]
  simp only [List.filter_append]
  rw [List.filter_eq_self.mpr (by
    intro c hc
    rw [List.mem_flatMap] at hc
    obtain ⟨g, -, hcg⟩ := hc
    exact updCallsFor_isUpd pfx g mm c hcg)]
  rw [List.filter_eq_nil_iff.mpr (by
    intro c hc
    rw [creCallsFor_isCre pfx gs mm c hc]
    exact Bool.false_ne_true)]
  rw [List.append_nil]
  exact List.flatMap_congr (fun g hg => updCallsFor_count_le_one pfx g (hinv g hg) mm)

/-- Witness for updatePerMatchingDirectoryGroup: the spec's scenario — prefix
"eng-", a registry group linked to grp@x.com, and a directory group named
eng-platform — yields exactly one update call renaming the group to
"platform". -/
theorem updatePerMatchingDirectoryGroup_witness :
    (∀ g ∈ [(⟨"g1", "old", [⟨"gsuite", "grp@x.com", "grp"⟩]⟩ : Group)],
      ∀ gg : GsuiteGroup, g.identities.countP (fun i => identityMatch gg i) ≤ 1) ∧
    (SynchronizeGroupsAndMembers "eng-" noFail
        [⟨"g1", "old", [⟨"gsuite", "grp@x.com", "grp"⟩]⟩]
        [(⟨"grp@x.com", "eng-platform"⟩, ["m1"])]).calls.filter SyncCall.isUpd =
      [SyncCall.update ⟨"g1", "platform", [⟨"gsuite", "grp@x.com", "grp"⟩]⟩] := by
  constructor
  · intro g hg gg
    simp only [List.mem_singleton] at hg
    subst hg
    simp only [List.countP_cons, List.countP_nil]
    by_cases h : identityMatch gg ⟨"gsuite", "grp@x.com", "grp"⟩ = true <;> simp [h]
  · have h := updatePerMatchingDirectoryGroup "eng-"
      [⟨"g1", "old", [⟨"gsuite", "grp@x.com", "grp"⟩]⟩]
      [(⟨"grp@x.com", "eng-platform"⟩, ["m1"])]
      (by
        intro g hg gg
        simp only [List.mem_singleton] at hg
        subst hg
        simp only [List.countP_cons, List.countP_nil]
        by_cases h : identityMatch gg ⟨"gsuite", "grp@x.com", "grp"⟩ = true <;> simp [h])
    rw [h]
    decide

/-- A successful call can be prepended to a fail-fast trace. -/
theorem FailFast.cons {f : SyncCall → Bool} {c : SyncCall} {cs : List SyncCall} {ok : Bool}
    (hc : f c = false) (h : FailFast f cs ok) : FailFast f (c :: cs) ok := by
  cases ok with
  | true =>
    simp only [FailFast, if_true] at h ⊢
    intro d hd
    rcases List.mem_cons.mp hd with rfl | hd2
    · exact hc
    · exact h d hd2
  | false =>
    simp only [FailFast, Bool.false_eq_true, if_false] at h ⊢
    obtain ⟨cs0, l, rfl, h1, h2⟩ := h
    refine ⟨c :: cs0, l, rfl, ?_, h2⟩
    intro d hd
    rcases List.mem_cons.mp hd with rfl | hd2
    · exact hc
    · exact h1 d hd2

/-- A trace of successes followed by a fail-fast trace is fail-fast. -/
theorem FailFast.append {f : SyncCall → Bool} {cs1 cs2 : List SyncCall} {ok : Bool}
    (h1 : ∀ c ∈ cs1, f c = false) (h2 : FailFast f cs2 ok) :
    FailFast f (cs1 ++ cs2) ok := by
  induction cs1 with
  | nil => simpa using h2
  | cons c cs1 ih =>
    rw [List.cons_append]
    exact FailFast.cons (h1 c (List.mem_cons_self c cs1))
      (ih (fun d hd => h1 d (List.mem_cons_of_mem c hd)))

/-- The empty successful trace is fail-fast. -/
theorem FailFast.nil {f : SyncCall → Bool} : FailFast f [] true := by
  simp [FailFast]

/-- The identity loop produces a fail-fast trace for any failure oracle. -/
theorem syncGroupIdentities_failFast (pfx : String) (f : SyncCall → Bool) (gg : GsuiteGroup) :
    ∀ (is : List GroupIdentity) (g : Group),
      FailFast f (syncGroupIdentities pfx f gg g is).2.1 (syncGroupIdentities pfx f gg g is).2.2 := by
  intro is
  induction is with
  | nil => intro g; exact FailFast.nil
  | cons i is ih =>
    intro g
    by_cases h : identityMatch gg i = true
    · by_cases hf : f (SyncCall.update { g with name := stringsTrimPfx gg.name pfx }) = true
      · simp only [syncGroupIdentities, h, if_true, hf]
        simp only [FailFast, Bool.false_eq_true, if_false]
        refine ⟨[], _, rfl, fun d hd => absurd hd (List.not_mem_nil d), hf⟩
      · simp only [syncGroupIdentities, h, if_true, hf, Bool.false_eq_true, if_false]
        exact FailFast.cons (Bool.not_eq_true _ ▸ hf) (ih _)
    · simp only [syncGroupIdentities, h, Bool.false_eq_true, if_false]
      exact ih g

/-- The per-group map scan produces a fail-fast trace. -/
theorem syncGroupOverMap_failFast (pfx : String) (f : SyncCall → Bool) :
    ∀ (mm : List (GsuiteGroup × List Member)) (g : Group),
      FailFast f (syncGroupOverMap pfx f g mm).2.1 (syncGroupOverMap pfx f g mm).2.2 := by
  intro mm
  induction mm with
  | nil => intro g; exact FailFast.nil
  | cons q mm ih =>
    intro g
    obtain ⟨gg, m⟩ := q
    have hstep := syncGroupIdentities_failFast pfx f gg g.identities g
    cases hok : (syncGroupIdentities pfx f gg g g.identities).2.2 with
    | false =>
      rw [hok] at hstep
      simp only [syncGroupOverMap, hok, Bool.false_eq_true, if_false]
      exact hstep
    | true =>
      rw [hok] at hstep
      simp only [FailFast, if_true] at hstep
      simp only [syncGroupOverMap, hok, if_true]
      exact FailFast.append hstep (ih _)

/-- The update pass produces a fail-fast trace. -/
theorem updatePass_failFast (pfx : String) (f : SyncCall → Bool)
    (mm : List (GsuiteGroup × List Member)) :
    ∀ gs : List Group,
      FailFast f (updatePass pfx f gs mm).2.1 (updatePass pfx f gs mm).2.2 := by
  intro gs
  induction gs with
  | nil => exact FailFast.nil
  | cons g gs ih =>
    have hstep := syncGroupOverMap_failFast pfx f mm g
    cases hok : (syncGroupOverMap pfx f g mm).2.2 with
    | false =>
      rw [hok] at hstep
      simp only [updatePass, hok, Bool.false_eq_true, if_false]
      exact hstep
    | true =>
      rw [hok] at hstep
      simp only [FailFast, if_true] at hstep
      simp only [updatePass, hok, if_true]
      exact FailFast.append hstep ih

/-- The creation pass produces a fail-fast trace. -/
theorem createPass_failFast (pfx : String) (f : SyncCall → Bool) (gs : List Group) :
    ∀ mm : List (GsuiteGroup × List Member),
      FailFast f (createPass pfx f gs mm).1 (createPass pfx f gs mm).2 := by
  intro mm
  induction mm with
  | nil => exact FailFast.nil
  | cons q mm ih =>
    obtain ⟨gg, m⟩ := q
    by_cases hc : (!hasMatchingEstafetteGroup gs gg && decide (0 < m.length)) = true
    · by_cases hf : f (SyncCall.create (newGroupFor pfx gg)) = true
      · simp only [createPass, hc, if_true, hf]
        simp only [FailFast, Bool.false_eq_true, if_false]
        refine ⟨[], _, rfl, fun d hd => absurd hd (List.not_mem_nil d), hf⟩
      · simp only [createPass, hc, if_true, hf, Bool.false_eq_true, if_false]
        exact FailFast.cons (Bool.not_eq_true _ ▸ hf) ih
    · simp only [createPass, hc, Bool.false_eq_true, if_false]
      exact ih

/-- Every call of the update pass is an update call, for any oracle. -/
theorem updatePass_calls_upd (pfx : String) (f : SyncCall → Bool)
    (mm : List (GsuiteGroup × List Member)) :
    ∀ (gs : List Group), ∀ c ∈ (updatePass pfx f gs mm).2.1, c.isUpd = true := by
  have hids : ∀ (is : List GroupIdentity) (gg : GsuiteGroup) (g : Group),
      ∀ c ∈ (syncGroupIdentities pfx f gg g is).2.1, c.isUpd = true := by
    intro is
    induction is with
    | nil => intro gg g c hc; cases hc
    | cons i is ih =>
      intro gg g c hc
      by_cases h : identityMatch gg i = true
      · by_cases hf : f (SyncCall.update { g with name := stringsTrimPfx gg.name pfx }) = true
        · simp only [syncGroupIdentities, h, if_true, hf] at hc
          rcases List.mem_singleton.mp hc with rfl
          rfl
        · simp only [syncGroupIdentities, h, if_true, hf, Bool.false_eq_true, if_false] at hc
          rcases List.mem_cons.mp hc with rfl | hc2
          · rfl
          · exact ih gg _ c hc2
      · simp only [syncGroupIdentities, h, Bool.false_eq_true, if_false] at hc
        exact ih gg g c hc
  have hmap : ∀ (mm2 : List (GsuiteGroup × List Member)) (g : Group),
      ∀ c ∈ (syncGroupOverMap pfx f g mm2).2.1, c.isUpd = true := by
    intro mm2
    induction mm2 with
    | nil => intro g c hc; cases hc
    | cons q mm2 ih =>
      intro g c hc
      obtain ⟨gg, m⟩ := q
      cases hok : (syncGroupIdentities pfx f gg g g.identities).2.2 with
      | false =>
        simp only [syncGroupOverMap, hok, Bool.false_eq_true, if_false] at hc
        exact hids g.identities gg g c hc
      | true =>
        simp only [syncGroupOverMap, hok, if_true] at hc
        rcases List.mem_append.mp hc with hc1 | hc2
        · exact hids g.identities gg g c hc1
        · exact ih _ c hc2
  intro gs
  induction gs with
  | nil => intro c hc; cases hc
  | cons g gs ih =>
    intro c hc
    cases hok : (syncGroupOverMap pfx f g mm).2.2 with
    | false =>
      simp only [updatePass, hok, Bool.false_eq_true, if_false] at hc
      exact hmap mm g c hc
    | true =>
      simp only [updatePass, hok, if_true] at hc
      rcases List.mem_append.mp hc with hc1 | hc2
      · exact hmap mm g c hc1
      · exact ih c hc2

/-- Every call of the creation pass is a create call, for any oracle. -/
theorem createPass_calls_cre (pfx : String) (f : SyncCall → Bool) (gs : List Group) :
    ∀ (mm : List (GsuiteGroup × List Member)), ∀ c ∈ (createPass pfx f gs mm).1,
      c.isUpd = false := by
  intro mm
  induction mm with
  | nil => intro c hc; cases hc
  | cons q mm ih =>
    intro c hc
    obtain ⟨gg, m⟩ := q
    by_cases hcnd : (!hasMatchingEstafetteGroup gs gg && decide (0 < m.length)) = true
    · by_cases hf : f (SyncCall.create (newGroupFor pfx gg)) = true
      · simp only [createPass, hcnd, if_true, hf] at hc
        rcases List.mem_singleton.mp hc with rfl
        rfl
      · simp only [createPass, hcnd, if_true, hf, Bool.false_eq_true, if_false] at hc
        rcases List.mem_cons.mp hc with rfl | hc2
        · rfl
        · exact ih c hc2
    · simp only [createPass, hcnd, Bool.false_eq_true, if_false] at hc
      exact ih c hc

/-- C5: in every run, the calls of the update pass all precede the calls of
the creation pass, and the trace is fail-fast: every call but the last
succeeded, and the run ends (ok = false) exactly by its first failing call —
nothing is issued after a failure. -/
theorem updatesPrecedeCreatesFailFast (pfx : String) (f : SyncCall → Bool)
    (gs : List Group) (mm : List (GsuiteGroup × List Member)) :
    (∃ us vs, (SynchronizeGroupsAndMembers pfx f gs mm).calls = us ++ vs ∧
      (∀ c ∈ us, c.isUpd = true) ∧ (∀ c ∈ vs, c.isUpd = false)) ∧
    FailFast f (SynchronizeGroupsAndMembers pfx f gs mm).calls
      (SynchronizeGroupsAndMembers pfx f gs mm).ok := by
  unfold SynchronizeGroupsAndMembers
  have hup := updatePass_failFast pfx f mm gs
  cases hok : (updatePass pfx f gs mm).2.2 with
  | false =>
    rw [hok] at hup
    simp only [hok, Bool.false_eq_true, if_false]
    exact ⟨⟨(updatePass pfx f gs mm).2.1, [], (List.append_nil _).symm,
      updatePass_calls_upd pfx f mm gs, by intro c hc; cases hc⟩, hup⟩
  | true =>
    rw [hok] at hup
    simp only [FailFast, if_true] at hup
    simp only [hok, if_true]
    refine ⟨⟨(updatePass pfx f gs mm).2.1, (createPass pfx f (updatePass pfx f gs mm).1 mm).1,
      rfl, updatePass_calls_upd pfx f mm gs, createPass_calls_cre pfx f _ mm⟩, ?_⟩
    exact FailFast.append hup (createPass_failFast pfx f _ mm)

/-- Renaming two frame-equal groups to the same name gives equal groups. -/
theorem setName_eq_of_sameFrame {g g0 : Group} (h : sameFrame g g0) (v : String) :
    ({ g with name := v } : Group) = { g0 with name := v } := by
  obtain ⟨h1, h2⟩ := h
  obtain ⟨a, b, c⟩ := g
  obtain ⟨d, e, k⟩ := g0
  simp_all

/-- Frame lemma for the identity loop: the group keeps its identifier and
identity references, and every issued call carries the frame group renamed to
the stripped directory-group name, with some scanned identity matching. -/
theorem syncGroupIdentities_frame (pfx : String) (f : SyncCall → Bool) (gg : GsuiteGroup) :
    ∀ (is : List GroupIdentity) (g g0 : Group), sameFrame g g0 →
      sameFrame (syncGroupIdentities pfx f gg g is).1 g0 ∧
      ∀ c ∈ (syncGroupIdentities pfx f gg g is).2.1,
        is.any (fun i => identityMatch gg i) = true ∧
          c = SyncCall.update { g0 with name := stringsTrimPfx gg.name pfx } := by
  intro is
  induction is with
  | nil =>
    intro g g0 hg
    exact ⟨hg, by intro c hc; cases hc⟩
  | cons i is ih =>
    intro g g0 hg
    have hg1 : sameFrame { g with name := stringsTrimPfx gg.name pfx } g0 := ⟨hg.1, hg.2⟩
    by_cases h : identityMatch gg i = true
    · by_cases hf : f (SyncCall.update { g with name := stringsTrimPfx gg.name pfx }) = true
      · simp only [syncGroupIdentities, h, if_true, hf]
        refine ⟨hg1, ?_⟩
        intro c hc
        rcases List.mem_singleton.mp hc with rfl
        exact ⟨by simp [h], congrArg SyncCall.update (setName_eq_of_sameFrame hg _)⟩
      · simp only [syncGroupIdentities, h, if_true, hf, Bool.false_eq_true, if_false]
        obtain ⟨ihf, ihc⟩ := ih { g with name := stringsTrimPfx gg.name pfx } g0 hg1
        refine ⟨ihf, ?_⟩
        intro c hc
        rcases List.mem_cons.mp hc with rfl | hc2
        · exact ⟨by simp [h], congrArg SyncCall.update (setName_eq_of_sameFrame hg _)⟩
        · obtain ⟨ha, hceq⟩ := ihc c hc2
          exact ⟨by simp [ha], hceq⟩
    · simp only [syncGroupIdentities, h, Bool.false_eq_true, if_false]
      obtain ⟨ihf, ihc⟩ := ih g g0 hg
      refine ⟨ihf, ?_⟩
      intro c hc
      obtain ⟨ha, hceq⟩ := ihc c hc
      exact ⟨by simp [ha], hceq⟩

/-- Frame lemma for the per-group map scan: the group keeps its identifier
and identity references, and every issued call is an update for some matching
membership entry carrying the frame group with only the name replaced. -/
theorem syncGroupOverMap_frame (pfx : String) (f : SyncCall → Bool) :
    ∀ (mm : List (GsuiteGroup × List Member)) (g g0 : Group), sameFrame g g0 →
      sameFrame (syncGroupOverMap pfx f g mm).1 g0 ∧
      ∀ c ∈ (syncGroupOverMap pfx f g mm).2.1,
        ∃ p ∈ mm, groupMatches g0 p.1 = true ∧
          c = SyncCall.update { g0 with name := stringsTrimPfx p.1.name pfx } := by
  intro mm
  induction mm with
  | nil =>
    intro g g0 hg
    exact ⟨hg, by intro c hc; cases hc⟩
  | cons q mm ih =>
    intro g g0 hg
    obtain ⟨gg, m⟩ := q
    obtain ⟨hstepf, hstepc⟩ := syncGroupIdentities_frame pfx f gg g.identities g g0 hg
    have hcall : ∀ c ∈ (syncGroupIdentities pfx f gg g g.identities).2.1,
        ∃ p ∈ (gg, m) :: mm, groupMatches g0 p.1 = true ∧
          c = SyncCall.update { g0 with name := stringsTrimPfx p.1.name pfx } := by
      intro c hc
      obtain ⟨ha, hceq⟩ := hstepc c hc
      refine ⟨(gg, m), List.mem_cons_self _ _, ?_, hceq⟩
      rw [groupMatches, ← hg.2]
      exact ha
    cases hok : (syncGroupIdentities pfx f gg g g.identities).2.2 with
    | false =>
      simp only [syncGroupOverMap, hok, Bool.false_eq_true, if_false]
      exact ⟨hstepf, hcall⟩
    | true =>
      simp only [syncGroupOverMap, hok, if_true]
      obtain ⟨ihf, ihc⟩ := ih (syncGroupIdentities pfx f gg g g.identities).1 g0 hstepf
      refine ⟨ihf, ?_⟩
      intro c hc
      rcases List.mem_append.mp hc with hc1 | hc2
      · exact hcall c hc1
      · obtain ⟨p, hp, hmt, hceq⟩ := ihc c hc2
        exact ⟨p, List.mem_cons_of_mem _ hp, hmt, hceq⟩

/-- Frame lemma for the update pass: the groups list keeps identifiers and
identity references pointwise, and every issued call is an update for some
original group and matching membership entry, with only the name replaced. -/
theorem updatePass_frame (pfx : String) (f : SyncCall → Bool)
    (mm : List (GsuiteGroup × List Member)) :
    ∀ gs : List Group,
      List.Forall₂ sameFrame (updatePass pfx f gs mm).1 gs ∧
      ∀ c ∈ (updatePass pfx f gs mm).2.1,
        ∃ g0 ∈ gs, ∃ p ∈ mm, groupMatches g0 p.1 = true ∧
          c = SyncCall.update { g0 with name := stringsTrimPfx p.1.name pfx } := by
  intro gs
  induction gs with
  | nil => exact ⟨List.Forall₂.nil, by intro c hc; cases hc⟩
  | cons g gs ih =>
    obtain ⟨hstepf, hstepc⟩ := syncGroupOverMap_frame pfx f mm g g ⟨rfl, rfl⟩
    have hcall : ∀ c ∈ (syncGroupOverMap pfx f g mm).2.1,
        ∃ g0 ∈ g :: gs, ∃ p ∈ mm, groupMatches g0 p.1 = true ∧
          c = SyncCall.update { g0 with name := stringsTrimPfx p.1.name pfx } := by
      intro c hc
      obtain ⟨p, hp, hmt, hceq⟩ := hstepc c hc
      exact ⟨g, List.mem_cons_self _ _, p, hp, hmt, hceq⟩
    cases hok : (syncGroupOverMap pfx f g mm).2.2 with
    | false =>
      simp only [updatePass, hok, Bool.false_eq_true, if_false]
      refine ⟨List.Forall₂.cons hstepf (List.forall₂_same.mpr fun x _ => ⟨rfl, rfl⟩), hcall⟩
    | true =>
      simp only [updatePass, hok, if_true]
      obtain ⟨ihf, ihc⟩ := ih
      refine ⟨List.Forall₂.cons hstepf ihf, ?_⟩
      intro c hc
      rcases List.mem_append.mp hc with hc1 | hc2
      · exact hcall c hc1
      · obtain ⟨g0, hg0, p, hp, hmt, hceq⟩ := ihc c hc2
        exact ⟨g0, List.mem_cons_of_mem _ hg0, p, hp, hmt, hceq⟩

/-- C10: for every run (any failure oracle), the caller-supplied registry
groups are changed only in their display-name field (identifier and identity
references survive pointwise, modelling the in-place rename), and every
update call's payload is exactly some fetched registry group with only its
display name replaced by the matching directory group's name with the prefix
trimmed — identifier and identity-reference list exactly as fetched. -/
theorem updatePayloadFrame (pfx : String) (f : SyncCall → Bool) (gs : List Group)
    (mm : List (GsuiteGroup × List Member)) :
    List.Forall₂ (fun g1 g0 => g1.id = g0.id ∧ g1.identities = g0.identities)
      (SynchronizeGroupsAndMembers pfx f gs mm).groups gs ∧
    ∀ u : Group, SyncCall.update u ∈ (SynchronizeGroupsAndMembers pfx f gs mm).calls →
      ∃ g0 ∈ gs, ∃ p ∈ mm, groupMatches g0 p.1 = true ∧
        u = { g0 with name := stringsTrimPfx p.1.name pfx } ∧
        u.id = g0.id ∧ u.identities = g0.identities := by
  have hfix : ∀ u : Group,
      SyncCall.update u ∈ (updatePass pfx f gs mm).2.1 →
      ∃ g0 ∈ gs, ∃ p ∈ mm, groupMatches g0 p.1 = true ∧
        u = { g0 with name := stringsTrimPfx p.1.name pfx } ∧
        u.id = g0.id ∧ u.identities = g0.identities := by
    intro u hu
    obtain ⟨g0, hg0, p, hp, hmt, hceq⟩ := (updatePass_frame pfx f mm gs).2 _ hu
    have hueq : u = { g0 with name := stringsTrimPfx p.1.name pfx } :=
      SyncCall.update.inj hceq
    exact ⟨g0, hg0, p, hp, hmt, hueq, by rw [hueq], by rw [hueq]⟩
  unfold SynchronizeGroupsAndMembers
  cases hok : (updatePass pfx f gs mm).2.2 with
  | false =>
    simp only [hok, Bool.false_eq_true, if_false]
    exact ⟨(updatePass_frame pfx f mm gs).1, fun u hu => hfix u hu⟩
  | true =>
    simp only [hok, if_true]
    refine ⟨(updatePass_frame pfx f mm gs).1, ?_⟩
    intro u hu
    rcases List.mem_append.mp hu with hu1 | hu2
    · exact hfix u hu1
    · exfalso
      have := createPass_calls_cre pfx f (updatePass pfx f gs mm).1 mm _ hu2
      simp [SyncCall.isUpd] at this

/-- Unfolding one membership entry of nameAfter. -/
theorem nameAfter_cons (pfx : String) (ids : List GroupIdentity)
    (q : GsuiteGroup × List Member) (mm : List (GsuiteGroup × List Member)) (n : String) :
    nameAfter pfx ids (q :: mm) n =
      nameAfter pfx ids mm
        (if ids.any (fun i => identityMatch q.1 i) then stringsTrimPfx q.1.name pfx else n) := rfl

/-- With no matching membership entry the name is kept. -/
theorem nameAfter_no_match (pfx : String) (ids : List GroupIdentity) :
    ∀ (mm : List (GsuiteGroup × List Member)) (n : String),
      (∀ p ∈ mm, ids.any (fun i => identityMatch p.1 i) = false) →
      nameAfter pfx ids mm n = n := by
  intro mm
  induction mm with
  | nil => intro n _; rfl
  | cons q mm ih =>
    intro n h
    rw [nameAfter_cons, if_neg (by rw [h q (List.mem_cons_self q mm)]; exact Bool.false_ne_true)]
    exact ih n (fun p hp => h p (List.mem_cons_of_mem q hp))

/-- With exactly one matching membership entry the final name is that entry's
stripped directory name, whatever the starting name. -/
theorem nameAfter_single_match (pfx : String) (ids : List GroupIdentity) :
    ∀ (mm : List (GsuiteGroup × List Member)) (p : GsuiteGroup × List Member) (n : String),
      mm.filter (fun q => ids.any (fun i => identityMatch q.1 i)) = [p] →
      nameAfter pfx ids mm n = stringsTrimPfx p.1.name pfx := by
  intro mm
  induction mm with
  | nil => intro p n h; cases h
  | cons q mm ih =>
    intro p n h
    rw [List.filter_cons] at h
    by_cases hq : ids.any (fun i => identityMatch q.1 i) = true
    · rw [if_pos hq] at h
      obtain ⟨rfl, hnil⟩ := List.cons.inj h
      rw [nameAfter_cons, if_pos hq]
      refine nameAfter_no_match pfx ids mm _ ?_
      intro r hr
      have := List.filter_eq_nil_iff.mp hnil r hr
      exact Bool.not_eq_true _ ▸ this
    · rw [if_neg hq] at h
      rw [nameAfter_cons, if_neg hq]
      exact ih p n h

/-- The group created for a directory group matches exactly the directory
groups carrying the same email. -/
theorem groupMatches_newGroupFor (pfx : String) (gg q : GsuiteGroup) :
    groupMatches (newGroupFor pfx gg) q = (gg.email == q.email) := by
  simp [groupMatches, newGroupFor, identityMatch, gsuitProviderName]

/-- A created group matches its own directory group. -/
theorem newGroupFor_self_match (pfx : String) (gg : GsuiteGroup) :
    groupMatches (newGroupFor pfx gg) gg = true := by
  rw [groupMatches_newGroupFor]
  exact beq_self_eq_true gg.email

/-- In a membership map with pairwise distinct emails, filtering by an
element's email keeps exactly that element. -/
theorem filter_email_eq_singleton :
    ∀ (mm : List (GsuiteGroup × List Member)),
      (mm.map (fun p => p.1.email)).Nodup →
      ∀ p ∈ mm, mm.filter (fun q => p.1.email == q.1.email) = [p] := by
  intro mm
  induction mm with
  | nil => intro _ p hp; cases hp
  | cons q mm ih =>
    intro h1 p hp
    rw [List.map_cons, List.nodup_cons] at h1
    rcases List.mem_cons.mp hp with rfl | hp2
    · rw [List.filter_cons, if_pos (beq_self_eq_true p.1.email)]
      congr 1
      rw [List.filter_eq_nil_iff]
      intro r hr hbeq
      exact h1.1 (List.mem_map.mpr ⟨r, hr, (beq_iff_eq.mp hbeq).symm⟩)
    · rw [List.filter_cons, if_neg ?_]
      · exact ih h1.2 p hp2
      · intro hbeq
        exact h1.1 (List.mem_map.mpr ⟨p, hp2, (beq_iff_eq.mp hbeq)⟩)

/-- Groups created by an error-free run: one per unmatched non-empty
directory group. -/
theorem createdGroups_noFail (pfx : String) (gs : List Group)
    (mm : List (GsuiteGroup × List Member)) :
    createdGroups (SynchronizeGroupsAndMembers pfx noFail gs mm) =
      (mm.filter (fun p => !hasMatchingEstafetteGroup gs p.1 && decide (0 < p.2.length))).map
        (fun p => newGroupFor pfx p.1) := by
  rw [SynchronizeGroupsAndMembers_noFail]
  show List.filterMap _ (_ ++ _) = _
  rw [List.filterMap_append]
  rw [List.filterMap_eq_nil_iff.mpr (by
    intro c hc
    rw [List.mem_flatMap] at hc
    obtain ⟨g, -, hcg⟩ := hc
    simp only [updCallsFor, List.mem_flatMap, List.mem_replicate] at hcg
    obtain ⟨p, -, -, rfl⟩ := hcg
    rfl)]
  rw [List.nil_append, creCallsFor, List.filterMap_map]
  have hcomp : ((fun c =>
      match c with
      | SyncCall.create g => some g
      | SyncCall.update _ => none) ∘ fun p : GsuiteGroup × List Member =>
        SyncCall.create (newGroupFor pfx p.1)) =
      some ∘ (fun p : GsuiteGroup × List Member => newGroupFor pfx p.1) := rfl
  rw [hcomp, List.filterMap_eq_map]

/-- Registry state after an error-free run, in closed form. -/
theorem runRegistry_eq (pfx : String) (gs : List Group)
    (mm : List (GsuiteGroup × List Member)) :
    runRegistry pfx gs mm =
      gs.map (renameFor pfx mm) ++
      (mm.filter (fun p => !hasMatchingEstafetteGroup gs p.1 && decide (0 < p.2.length))).map
        (fun p => newGroupFor pfx p.1) := by
  show (SynchronizeGroupsAndMembers pfx noFail gs mm).groups ++
      createdGroups (SynchronizeGroupsAndMembers pfx noFail gs mm) = _
  rw [createdGroups_noFail, SynchronizeGroupsAndMembers_noFail]

/-- A group of the list matching a directory group makes the creation-pass
scan return true. -/
theorem hasMatching_of_mem (gs : List Group) (g : Group) (gg : GsuiteGroup)
    (hg : g ∈ gs) (hm : groupMatches g gg = true) :
    hasMatchingEstafetteGroup gs gg = true :=
  List.any_eq_true.mpr ⟨g, hg, hm⟩

/-- The creation-pass scan distributes over list append. -/
theorem hasMatching_append (gs1 gs2 : List Group) (gg : GsuiteGroup) :
    hasMatchingEstafetteGroup (gs1 ++ gs2) gg =
      (hasMatchingEstafetteGroup gs1 gg || hasMatchingEstafetteGroup gs2 gg) := by
  simp [hasMatchingEstafetteGroup, List.any_append]

/-- Mapping a function that fixes every element of a list is the identity. -/
theorem listMapFixpoint {α : Type} (f : α → α) :
    ∀ l : List α, (∀ x ∈ l, f x = x) → l.map f = l := by
  intro l
  induction l with
  | nil => intro _; rfl
  | cons x l ih =>
    intro h
    rw [List.map_cons, h x (List.mem_cons_self x l),
      ih (fun y hy => h y (List.mem_cons_of_mem x hy))]

/-- A registry group that either matches nothing, or matches exactly one
membership entry via one identity and already carries that entry's stripped
name, is a fixed point of the update pass: it is not renamed, and its update
block is empty or the single no-op update re-sending the group unchanged. -/
theorem group_run2_fixed (pfx : String) (mm : List (GsuiteGroup × List Member)) (g : Group)
    (hcnt : ∀ gg : GsuiteGroup, g.identities.countP (fun i => identityMatch gg i) ≤ 1)
    (hfil : mm.filter (fun q => groupMatches g q.1) = [] ∨
      ∃ p, mm.filter (fun q => groupMatches g q.1) = [p] ∧
        g.name = stringsTrimPfx p.1.name pfx) :
    renameFor pfx mm g = g ∧
    (updCallsFor pfx g mm = [] ∨ updCallsFor pfx g mm = [SyncCall.update g]) := by
  rcases hfil with hnil | ⟨p, hp, hname⟩
  · constructor
    · have hno : ∀ q ∈ mm, g.identities.any (fun i => identityMatch q.1 i) = false := by
        intro q hq
        have := List.filter_eq_nil_iff.mp hnil q hq
        exact Bool.not_eq_true _ ▸ this
      rw [renameFor, nameAfter_no_match pfx g.identities mm g.name hno]
    · left
      rw [updCallsFor_count_le_one pfx g hcnt mm, hnil, List.map_nil]
  · constructor
    · have hp2 : mm.filter (fun q => g.identities.any (fun i => identityMatch q.1 i)) = [p] := hp
      rw [renameFor, nameAfter_single_match pfx g.identities mm p g.name hp2, ← hname]
    · right
      rw [updCallsFor_count_le_one pfx g hcnt mm, hp, List.map_singleton, ← hname]

/-- C6: running the reconciler twice on the same membership map, the second
run starting from the registry state the first produced, changes nothing: the
second run's registry state equals the first's, the second run issues no
create call (in particular none for a group created by the first run), and
every update call it issues carries a group exactly as stored — no stored
field changes.  Stated for a well-formed input: membership entries carry
pairwise distinct emails, each registry group matches at most one membership
entry, and a registry group carries at most one identity reference per
directory group (the data-model invariant). -/
theorem reconcilerIdempotent (pfx : String) (gs : List Group)
    (mm : List (GsuiteGroup × List Member))
    (h1 : (mm.map (fun p => p.1.email)).Nodup)
    (h2 : ∀ g ∈ gs, (mm.filter (fun p => groupMatches g p.1)).length ≤ 1)
    (h3 : ∀ g ∈ gs, ∀ gg : GsuiteGroup,
      g.identities.countP (fun i => identityMatch gg i) ≤ 1) :
    runRegistry pfx (runRegistry pfx gs mm) mm = runRegistry pfx gs mm ∧
    createdGroups (SynchronizeGroupsAndMembers pfx noFail (runRegistry pfx gs mm) mm) = [] ∧
    (∀ c ∈ (SynchronizeGroupsAndMembers pfx noFail (runRegistry pfx gs mm) mm).calls,
      ∃ g ∈ runRegistry pfx gs mm, c = SyncCall.update g) := by
  have hfixed : ∀ g ∈ runRegistry pfx gs mm,
      renameFor pfx mm g = g ∧
      (updCallsFor pfx g mm = [] ∨ updCallsFor pfx g mm = [SyncCall.update g]) := by
    intro g hg
    rw [runRegistry_eq] at hg
    rcases List.mem_append.mp hg with hg1 | hg2
    · obtain ⟨g0, hg0, rfl⟩ := List.mem_map.mp hg1
      refine group_run2_fixed pfx mm _ (fun gg => h3 g0 hg0 gg) ?_
      have hlen : (mm.filter (fun q => groupMatches (renameFor pfx mm g0) q.1)).length ≤ 1 :=
        h2 g0 hg0
      rcases hfl : mm.filter (fun q => groupMatches (renameFor pfx mm g0) q.1) with - | ⟨p, rest⟩
      · exact Or.inl hfl
      · rcases hrest : rest with - | ⟨p2, rest2⟩
        · subst hrest
          refine Or.inr ⟨p, hfl, ?_⟩
          have hp2 : mm.filter (fun q => g0.identities.any (fun i => identityMatch q.1 i)) =
              [p] := hfl
          show nameAfter pfx g0.identities mm g0.name = _
          exact nameAfter_single_match pfx g0.identities mm p g0.name hp2
        · exfalso
          rw [hfl, hrest] at hlen
          simp at hlen
    · obtain ⟨p0, hp0mem, rfl⟩ := List.mem_map.mp hg2
      have hp0 : p0 ∈ mm := (List.mem_filter.mp hp0mem).1
      refine group_run2_fixed pfx mm _ (fun gg => ?_) ?_
      · exact le_trans (List.countP_le_length _) (le_of_eq rfl)
      · refine Or.inr ⟨p0, ?_, rfl⟩
        have hcg : ∀ q ∈ mm, groupMatches (newGroupFor pfx p0.1) q.1 =
            (p0.1.email == q.1.email) := fun q _ => groupMatches_newGroupFor pfx p0.1 q.1
        rw [List.filter_congr hcg]
        exact filter_email_eq_singleton mm h1 p0 hp0
  have hcredFalse : ∀ p ∈ mm,
      (!hasMatchingEstafetteGroup (runRegistry pfx gs mm) p.1 &&
        decide (0 < p.2.length)) = false := by
    intro p hp
    by_cases hm : hasMatchingEstafetteGroup gs p.1 = true
    · have hS1 : hasMatchingEstafetteGroup (runRegistry pfx gs mm) p.1 = true := by
        rw [runRegistry_eq, hasMatching_append, hasMatching_map_renameFor, hm, Bool.true_or]
      rw [hS1]
      rfl
    · by_cases hlen : 0 < p.2.length
      · have hmf : hasMatchingEstafetteGroup gs p.1 = false := Bool.not_eq_true _ ▸ hm
        have hmem : newGroupFor pfx p.1 ∈ runRegistry pfx gs mm := by
          rw [runRegistry_eq]
          refine List.mem_append.mpr (Or.inr ?_)
          exact List.mem_map.mpr
            ⟨p, List.mem_filter.mpr ⟨hp, by rw [hmf, decide_eq_true hlen]; rfl⟩, rfl⟩
        have hS1 : hasMatchingEstafetteGroup (runRegistry pfx gs mm) p.1 = true :=
          hasMatching_of_mem _ _ _ hmem (newGroupFor_self_match pfx p.1)
        rw [hS1]
        rfl
      · rw [decide_eq_false hlen, Bool.and_false]
  have hfilmm : mm.filter (fun p =>
      !hasMatchingEstafetteGroup (runRegistry pfx gs mm) p.1 &&
        decide (0 < p.2.length)) = [] := by
    rw [List.filter_eq_nil_iff]
    intro p hp
    rw [hcredFalse p hp]
    exact Bool.false_ne_true
  have hmapfix : (runRegistry pfx gs mm).map (renameFor pfx mm) = runRegistry pfx gs mm :=
    listMapFixpoint _ _ (fun g hg => (hfixed g hg).1)
  have hcre2 : createdGroups (SynchronizeGroupsAndMembers pfx noFail
      (runRegistry pfx gs mm) mm) = [] := by
    rw [createdGroups_noFail, hfilmm, List.map_nil]
  have hrun2 : runRegistry pfx (runRegistry pfx gs mm) mm = runRegistry pfx gs mm := by
    rw [runRegistry_eq pfx (runRegistry pfx gs mm) mm, hfilmm, List.map_nil,
      List.append_nil, hmapfix]
  refine ⟨hrun2, hcre2, ?_⟩
  intro c hc
  rw [SynchronizeGroupsAndMembers_noFail] at hc
  have hcreS1 : creCallsFor pfx (runRegistry pfx gs mm) mm = [] := by
    rw [creCallsFor, hfilmm, List.map_nil]
  rcases List.mem_append.mp hc with hup | hcr
  · rw [List.mem_flatMap] at hup
    obtain ⟨g, hgS1, hcg⟩ := hup
    rcases (hfixed g hgS1).2 with hnil | hone
    · rw [hnil] at hcg; cases hcg
    · rw [hone] at hcg
      rcases List.mem_singleton.mp hcg with rfl
      exact ⟨g, hgS1, rfl⟩
  · rw [hcreS1] at hcr
    cases hcr

/-- Witness for reconcilerIdempotent: one linked registry group, two
non-empty directory groups (one matched, one to create) and one empty one. -/
theorem reconcilerIdempotent_witness :
    (([((⟨"a@x", "eng-alpha"⟩ : GsuiteGroup), ["m"]),
       ((⟨"b@x", "eng-beta"⟩ : GsuiteGroup), ["m"]),
       ((⟨"c@x", "eng-gamma"⟩ : GsuiteGroup), ([] : List Member))].map
        (fun p => p.1.email)).Nodup) ∧
    runRegistry "eng-"
        (runRegistry "eng-" [(⟨"g1", "old", [⟨"gsuite", "a@x", "A"⟩]⟩ : Group)]
          [((⟨"a@x", "eng-alpha"⟩ : GsuiteGroup), ["m"]),
           ((⟨"b@x", "eng-beta"⟩ : GsuiteGroup), ["m"]),
           ((⟨"c@x", "eng-gamma"⟩ : GsuiteGroup), ([] : List Member))])
        [((⟨"a@x", "eng-alpha"⟩ : GsuiteGroup), ["m"]),
         ((⟨"b@x", "eng-beta"⟩ : GsuiteGroup), ["m"]),
         ((⟨"c@x", "eng-gamma"⟩ : GsuiteGroup), ([] : List Member))] =
      runRegistry "eng-" [(⟨"g1", "old", [⟨"gsuite", "a@x", "A"⟩]⟩ : Group)]
        [((⟨"a@x", "eng-alpha"⟩ : GsuiteGroup), ["m"]),
         ((⟨"b@x", "eng-beta"⟩ : GsuiteGroup), ["m"]),
         ((⟨"c@x", "eng-gamma"⟩ : GsuiteGroup), ([] : List Member))] := by
  refine ⟨by decide, ?_⟩
  exact (reconcilerIdempotent "eng-" [⟨"g1", "old", [⟨"gsuite", "a@x", "A"⟩]⟩]
    [(⟨"a@x", "eng-alpha"⟩, ["m"]), (⟨"b@x", "eng-beta"⟩, ["m"]), (⟨"c@x", "eng-gamma"⟩, [])]
    (by decide)
    (by
      intro g hg
      rcases List.mem_singleton.mp hg with rfl
      decide)
    (by
      intro g hg gg
      rcases List.mem_singleton.mp hg with rfl
      exact List.countP_le_length _)).1

end Syncer
